import Mathlib

/-!
Shallow embedding of the pinocchio spatial-log kernels (`src/spatial/log.hxx`)
and of the Jacobian extraction/assembly contracts (`include/pinocchio/algorithm/
jacobian.hpp`, `unittest/joint-helical.cpp`), over exact real scalars.

The C++ code is generic in the scalar type and performs all branching through
the branchless `internal::if_then_else(op, a, b, x, y)` combinator; we mirror
that combinator with one Lean definition per comparison operator.  The
per-scalar-type small-angle threshold `TaylorSeriesExpansion<Scalar>::
precision<3>()` is not part of the inspected sources; it is passed everywhere
as an explicit parameter `prec`.
-/

namespace Pinocchio

/-- 3×3 real matrix, the scalar instantiation of `Matrix3Like`. -/
abbrev Matrix3 := Matrix (Fin 3) (Fin 3) ℝ

/-- 3-dimensional real vector, the scalar instantiation of `Vector3`. -/
abbrev Vec3 := Fin 3 → ℝ

/-- `internal::if_then_else(GE, a, b, x, y)`: `x` when `a ≥ b`, else `y`. -/
noncomputable def if_ge (a b x y : ℝ) : ℝ := if b ≤ a then x else y

/-- `internal::if_then_else(LE, a, b, x, y)`: `x` when `a ≤ b`, else `y`. -/
noncomputable def if_le (a b x y : ℝ) : ℝ := if a ≤ b then x else y

/-- `internal::if_then_else(GT, a, b, x, y)`: `x` when `a > b`, else `y`. -/
noncomputable def if_gt (a b x y : ℝ) : ℝ := if b < a then x else y

/-- `internal::if_then_else(LT, a, b, x, y)`: `x` when `a < b`, else `y`. -/
noncomputable def if_lt (a b x y : ℝ) : ℝ := if a < b then x else y

theorem if_ge_pos {a b : ℝ} (h : b ≤ a) (x y : ℝ) : if_ge a b x y = x := if_pos h

theorem if_ge_neg {a b : ℝ} (h : a < b) (x y : ℝ) : if_ge a b x y = y :=
  if_neg (not_le.mpr h)

theorem if_le_pos {a b : ℝ} (h : a ≤ b) (x y : ℝ) : if_le a b x y = x := if_pos h

theorem if_le_neg {a b : ℝ} (h : b < a) (x y : ℝ) : if_le a b x y = y :=
  if_neg (not_le.mpr h)

theorem if_gt_pos {a b : ℝ} (h : b < a) (x y : ℝ) : if_gt a b x y = x := if_pos h

theorem if_gt_neg {a b : ℝ} (h : a ≤ b) (x y : ℝ) : if_gt a b x y = y :=
  if_neg (not_lt.mpr h)

theorem if_lt_pos {a b : ℝ} (h : a < b) (x y : ℝ) : if_lt a b x y = x := if_pos h

theorem if_lt_neg {a b : ℝ} (h : b ≤ a) (x y : ℝ) : if_lt a b x y = y :=
  if_neg (not_lt.mpr h)

/-- `R.trace()` for a 3×3 matrix. -/
def trace3 (R : Matrix3) : ℝ := R 0 0 + R 1 1 + R 2 2

/-- The angle computed by `log3_impl::run` (line 29-35 of `log.hxx`):
a three-way branchless select on the (unclamped) trace. -/
noncomputable def log3theta (R : Matrix3) : ℝ :=
  if_ge (trace3 R) 3
    0
    (if_le (trace3 R) (-1)
      Real.pi
      (Real.arccos ((trace3 R - 1) / 2)))

/-- `tr = math::max(math::min(tr,3),-1)` (line 36 of `log.hxx`). -/
noncomputable def clampTr (tr : ℝ) : ℝ := max (min tr 3) (-1)

/-- `cphi = -(tr - 1)/2` computed on the clamped trace (line 48). -/
noncomputable def cphi3 (R : Matrix3) : ℝ := -(clampTr (trace3 R) - 1) / 2

/-- `beta = theta*theta / (1 + cphi)` (line 49). -/
noncomputable def beta3 (R : Matrix3) : ℝ :=
  log3theta R * log3theta R / (1 + cphi3 R)

/-- `tmp = (R.diagonal().array() + cphi) * beta` (line 50). -/
noncomputable def tmp3 (R : Matrix3) (i : Fin 3) : ℝ := (R i i + cphi3 R) * beta3 R

/-- `if_then_else(GT, x, 0, sqrt(x), 0)`: the guarded square root used for each
component in the near-π branch (lines 54, 59, 64). -/
noncomputable def sqrtPos (x : ℝ) : ℝ := if_gt x 0 (Real.sqrt x) 0

/-- The sign selector `if_then_else(GT, R(j,k), R(k,j), 1, -1)` of the near-π
branch, per component (lines 53, 58, 63). -/
noncomputable def signFac (R : Matrix3) : Vec3 :=
  ![if_gt (R 2 1) (R 1 2) 1 (-1),
    if_gt (R 0 2) (R 2 0) 1 (-1),
    if_gt (R 1 0) (R 0 1) 1 (-1)]

/-- The vector `res` written by `log3_impl::run` (lines 40-66 of `log.hxx`).
`prec` stands for `TaylorSeriesExpansion<Scalar>::precision<3>()`. -/
noncomputable def log3res (prec : ℝ) (R : Matrix3) : Vec3 :=
  let θ := log3theta R
  let t := (if_gt θ prec (θ / Real.sin θ) 1) / 2
  ![if_ge θ (Real.pi - 1 / 100)
      (signFac R 0 * sqrtPos (tmp3 R 0))
      (t * (R 2 1 - R 1 2)),
    if_ge θ (Real.pi - 1 / 100)
      (signFac R 1 * sqrtPos (tmp3 R 1))
      (t * (R 0 2 - R 2 0)),
    if_ge θ (Real.pi - 1 / 100)
      (signFac R 2 * sqrtPos (tmp3 R 2))
      (t * (R 1 0 - R 0 1))]

/-- Result of `log3`: the output angle `theta` and rotation vector `res`. -/
structure Log3Result where
  theta : ℝ
  res : Vec3

/-- `log3_impl<Scalar>::run(R, theta, res)` as a pure function. -/
noncomputable def log3 (prec : ℝ) (R : Matrix3) : Log3Result :=
  ⟨log3theta R, log3res prec R⟩

/-- `(R - R^T)_vee`, the vee map of twice the antisymmetric part:
the component differences used by the generic branch (lines 55, 60, 65). -/
def antisymVee (R : Matrix3) : Vec3 :=
  ![R 2 1 - R 1 2, R 0 2 - R 2 0, R 1 0 - R 0 1]

/-- The identity rotation. -/
def rotId : Matrix3 := Matrix.of fun i j => if i = j then 1 else 0

/-- Rotation by angle π about the coordinate axis `k`:
`R = 2 e_k e_kᵀ - I`, i.e. diagonal with `+1` at `(k,k)` and `-1` elsewhere. -/
def rotPiAxis (k : Fin 3) : Matrix3 :=
  Matrix.of fun i j => if i = j then (if i = k then 1 else -1) else 0

theorem trace3_rotId : trace3 rotId = 3 := by
  simp [trace3, rotId]; norm_num

theorem log3theta_rotId : log3theta rotId = 0 := by
  rw [log3theta, trace3_rotId, if_ge_pos le_rfl]

theorem trace3_rotPiAxis (k : Fin 3) : trace3 (rotPiAxis k) = -1 := by
  fin_cases k <;> simp [trace3, rotPiAxis]

theorem log3theta_rotPiAxis (k : Fin 3) : log3theta (rotPiAxis k) = Real.pi := by
  rw [log3theta, trace3_rotPiAxis]
  rw [if_ge_neg (by norm_num), if_le_pos le_rfl]

theorem sqrtPos_eq_sqrt_max (x : ℝ) : sqrtPos x = Real.sqrt (max 0 x) := by
  rw [sqrtPos]
  rcases lt_or_le 0 x with h | h
  · rw [if_gt_pos h, max_eq_right h.le]
  · rw [if_gt_neg h, max_eq_left h, Real.sqrt_zero]

/-- Component-wise form of `log3res` in the near-π branch. -/
theorem log3res_near_pi (prec : ℝ) (R : Matrix3)
    (h : Real.pi - 1 / 100 ≤ log3theta R) :
    ∀ i, log3res prec R i = signFac R i * sqrtPos (tmp3 R i) := by
  intro i
  fin_cases i <;> (simp only [log3res, if_ge_pos h]; rfl)

/-- Component-wise form of `log3res` in the generic branch. -/
theorem log3res_generic (prec : ℝ) (R : Matrix3)
    (h : log3theta R < Real.pi - 1 / 100) :
    ∀ i, log3res prec R i =
      ((if_gt (log3theta R) prec (log3theta R / Real.sin (log3theta R)) 1) / 2)
        * antisymVee R i := by
  intro i
  fin_cases i <;> (simp only [log3res, if_ge_neg h]; rfl)

/-- C1: for every 3×3 matrix `R`, the angle returned by `log3` is `0` when
`tr(R) ≥ 3`, `π` when `tr(R) ≤ -1`, `acos((tr(R)-1)/2)` otherwise, and it
always lies in `[0, π]`. -/
theorem log3_theta_cases (prec : ℝ) (R : Matrix3) :
    ((3 ≤ trace3 R → (log3 prec R).theta = 0)
      ∧ (trace3 R ≤ -1 → (log3 prec R).theta = Real.pi)
      ∧ (-1 < trace3 R → trace3 R < 3 →
          (log3 prec R).theta = Real.arccos ((trace3 R - 1) / 2)))
    ∧ 0 ≤ (log3 prec R).theta ∧ (log3 prec R).theta ≤ Real.pi := by
  have hth : (log3 prec R).theta = log3theta R := rfl
  refine ⟨⟨?_, ?_, ?_⟩, ?_⟩
  · intro h; rw [hth, log3theta, if_ge_pos h]
  · intro h
    rw [hth, log3theta, if_ge_neg (by linarith), if_le_pos h]
  · intro h1 h3
    rw [hth, log3theta, if_ge_neg h3, if_le_neg h1]
  · rw [hth, log3theta]
    rcases le_or_lt 3 (trace3 R) with h | h
    · rw [if_ge_pos h]
      exact ⟨le_rfl, Real.pi_nonneg⟩
    · rw [if_ge_neg h]
      rcases le_or_lt (trace3 R) (-1) with h' | h'
      · rw [if_le_pos h']
        exact ⟨Real.pi_nonneg, le_rfl⟩
      · rw [if_le_neg h']
        exact ⟨Real.arccos_nonneg _, Real.arccos_le_pi _⟩

/-- Witness for C1: at the identity rotation, whose trace is `3`, the angle is
`0`. -/
theorem log3_theta_cases_witness : (log3 1 rotId).theta = 0 :=
  (log3_theta_cases 1 rotId).1.1 (by rw [trace3_rotId])

theorem cphi3_rotPiAxis (k : Fin 3) : cphi3 (rotPiAxis k) = 1 := by
  rw [cphi3, trace3_rotPiAxis, clampTr]; norm_num

theorem rotPiAxis_off_diag (k : Fin 3) {a b : Fin 3} (hab : a ≠ b) :
    rotPiAxis k a b = 0 := by
  simp [rotPiAxis, hab]

theorem tmp3_rotPiAxis (k j : Fin 3) :
    tmp3 (rotPiAxis k) j = if j = k then Real.pi * Real.pi else 0 := by
  rw [tmp3, beta3, cphi3_rotPiAxis, log3theta_rotPiAxis]
  rcases eq_or_ne j k with h | h
  · rw [if_pos h, show rotPiAxis k j j = 1 by simp [rotPiAxis, h]]
    ring
  · rw [if_neg h, show rotPiAxis k j j = -1 by simp [rotPiAxis, h]]
    ring

theorem signFac_rotPiAxis (k j : Fin 3) : signFac (rotPiAxis k) j = -1 := by
  fin_cases j
  · show if_gt (rotPiAxis k 2 1) (rotPiAxis k 1 2) 1 (-1) = -1
    rw [rotPiAxis_off_diag k (by decide), rotPiAxis_off_diag k (by decide)]
    exact if_gt_neg le_rfl _ _
  · show if_gt (rotPiAxis k 0 2) (rotPiAxis k 2 0) 1 (-1) = -1
    rw [rotPiAxis_off_diag k (by decide), rotPiAxis_off_diag k (by decide)]
    exact if_gt_neg le_rfl _ _
  · show if_gt (rotPiAxis k 1 0) (rotPiAxis k 0 1) 1 (-1) = -1
    rw [rotPiAxis_off_diag k (by decide), rotPiAxis_off_diag k (by decide)]
    exact if_gt_neg le_rfl _ _

/-- Full evaluation of `log3` at the rotation by π about coordinate axis `k`:
the angle is exactly π and the rotation vector is `-π · e_k`. -/
theorem log3_rotPiAxis_eval (prec : ℝ) (k : Fin 3) :
    (log3 prec (rotPiAxis k)).theta = Real.pi ∧
    (log3 prec (rotPiAxis k)).res = fun j => if j = k then -Real.pi else 0 := by
  refine ⟨log3theta_rotPiAxis k, ?_⟩
  have hθ : Real.pi - 1 / 100 ≤ log3theta (rotPiAxis k) := by
    rw [log3theta_rotPiAxis]; linarith
  funext j
  show log3res prec (rotPiAxis k) j = _
  rw [log3res_near_pi prec _ hθ j, signFac_rotPiAxis, tmp3_rotPiAxis]
  rcases eq_or_ne j k with h | h
  · rw [if_pos h, if_pos h, sqrtPos,
      if_gt_pos (mul_pos Real.pi_pos Real.pi_pos),
      Real.sqrt_mul_self Real.pi_nonneg]
    ring
  · rw [if_neg h, if_neg h, sqrtPos, if_gt_neg le_rfl]
    ring

/-- C2: below the near-π margin `π - 1e-2`, `log3` returns
`r = (θ / (2 sin θ)) · (R - Rᵗ)_vee` when `θ` is above the precision
threshold, and the Taylor replacement `r = (1/2) · (R - Rᵗ)_vee` when `θ` is
at or below it. -/
theorem log3_generic_branch (prec : ℝ) (R : Matrix3)
    (h : (log3 prec R).theta < Real.pi - 1 / 100) :
    (prec < (log3 prec R).theta →
      ∀ i, (log3 prec R).res i =
        ((log3 prec R).theta / (2 * Real.sin ((log3 prec R).theta))) * antisymVee R i)
    ∧ ((log3 prec R).theta ≤ prec →
      ∀ i, (log3 prec R).res i = (1 / 2) * antisymVee R i) := by
  have hth : (log3 prec R).theta = log3theta R := rfl
  rw [hth] at h
  constructor
  · intro hp i
    rw [hth] at hp ⊢
    rw [show (log3 prec R).res i = log3res prec R i from rfl,
      log3res_generic prec R h i, if_gt_pos hp, div_div,
      mul_comm (Real.sin (log3theta R)) 2]
  · intro hp i
    rw [hth] at hp
    rw [show (log3 prec R).res i = log3res prec R i from rfl,
      log3res_generic prec R h i, if_gt_neg hp]

/-- Witness for C2: the identity rotation has angle `0`, below both
thresholds; the Taylor branch gives the zero vector. -/
theorem log3_generic_branch_witness :
    (log3 1 rotId).theta < Real.pi - 1 / 100 ∧ (log3 1 rotId).res 0 = 0 := by
  have hθ : (log3 1 rotId).theta = 0 := log3theta_rotId
  have h : (log3 1 rotId).theta < Real.pi - 1 / 100 := by
    rw [hθ]; linarith [Real.pi_gt_three]
  refine ⟨h, ?_⟩
  rw [(log3_generic_branch 1 rotId h).2 (by rw [hθ]; norm_num) 0]
  simp +decide [antisymVee, rotId]

/-- C3 counterexample: at the rotation by π about the x-axis, `log3` returns
`r₀ = -π`, while the claimed component formula
`sign(R₂₁-R₁₂) · sqrt(max(0, (R₀₀+cosφ)/(1+cosφ)))` evaluates to `-1` (with
the code's tie sign `-1`) or to `0` (with the mathematical `sign(0) = 0`);
both differ from `-π`, so the claimed formula is missing the `θ²` factor. -/
theorem log3_near_pi_claim_counterexample :
    (log3 1 (rotPiAxis 0)).res 0 = -Real.pi
    ∧ (log3 1 (rotPiAxis 0)).res 0 ≠
        signFac (rotPiAxis 0) 0 *
          Real.sqrt (max 0 ((rotPiAxis 0 0 0 + cphi3 (rotPiAxis 0)) /
            (1 + cphi3 (rotPiAxis 0))))
    ∧ (log3 1 (rotPiAxis 0)).res 0 ≠ 0 := by
  have hres : (log3 1 (rotPiAxis 0)).res 0 = -Real.pi := by
    rw [(log3_rotPiAxis_eval 1 0).2]; simp
  have hpi := Real.pi_gt_three
  refine ⟨hres, ?_, ?_⟩
  · rw [hres, signFac_rotPiAxis, cphi3_rotPiAxis,
      show rotPiAxis 0 0 0 = (1 : ℝ) by simp [rotPiAxis],
      show ((1 : ℝ) + 1) / (1 + 1) = 1 by norm_num,
      max_eq_right zero_le_one, Real.sqrt_one]
    intro hc
    norm_num at hc
    linarith
  · rw [hres, neg_ne_zero]
    exact Real.pi_ne_zero

/-- C3 (amended): for `θ ≥ π - 1e-2`, each component is
`rᵢ = sᵢ · sqrt(max(0, θ² · (R[i,i] + cosφ) / (1 + cosφ)))` with
`cosφ = -(clamped tr - 1)/2` and sign `sᵢ = +1` exactly when
`R[j,k] > R[k,j]` (else `-1`); the claim's formula lacked the `θ²` factor
inside the square root. -/
theorem log3_near_pi_branch (prec : ℝ) (R : Matrix3)
    (h : Real.pi - 1 / 100 ≤ (log3 prec R).theta) :
    ∀ i, (log3 prec R).res i =
      signFac R i *
        Real.sqrt (max 0 ((log3 prec R).theta * (log3 prec R).theta *
          (R i i + cphi3 R) / (1 + cphi3 R))) := by
  intro i
  have hth : (log3 prec R).theta = log3theta R := rfl
  rw [hth] at h ⊢
  rw [show (log3 prec R).res i = log3res prec R i from rfl,
    log3res_near_pi prec R h i, sqrtPos_eq_sqrt_max,
    show tmp3 R i = log3theta R * log3theta R * (R i i + cphi3 R) / (1 + cphi3 R) by
      rw [tmp3, beta3]; ring]

/-- Witness for C3 (amended) at the π-rotation about the x-axis, component 1. -/
theorem log3_near_pi_branch_witness :
    Real.pi - 1 / 100 ≤ (log3 1 (rotPiAxis 0)).theta
    ∧ (log3 1 (rotPiAxis 0)).res 1 =
        signFac (rotPiAxis 0) 1 *
          Real.sqrt (max 0 ((log3 1 (rotPiAxis 0)).theta * (log3 1 (rotPiAxis 0)).theta *
            (rotPiAxis 0 1 1 + cphi3 (rotPiAxis 0)) / (1 + cphi3 (rotPiAxis 0)))) := by
  have h : Real.pi - 1 / 100 ≤ (log3 1 (rotPiAxis 0)).theta := by
    rw [(log3_rotPiAxis_eval 1 0).1]; linarith
  exact ⟨h, log3_near_pi_branch 1 (rotPiAxis 0) h 1⟩

/-- C4: whenever the `acos` branch of the angle selection applies (trace
strictly between `-1` and `3`), its argument lies inside `(-1, 1)`, so the
angle is a well-defined real and the NaN assertion of `log3_impl::run`
cannot fire; and at the rotation by π about any coordinate axis `k` the full
result is finite and equals the closed form `π · u` for the unit axis vector
`u = -e_k` of that rotation. -/
theorem log3_no_nan (prec : ℝ) :
    (∀ R : Matrix3, -1 < trace3 R → trace3 R < 3 →
      -1 < (trace3 R - 1) / 2 ∧ (trace3 R - 1) / 2 < 1)
    ∧ ∀ k : Fin 3, (log3 prec (rotPiAxis k)).theta = Real.pi
        ∧ (log3 prec (rotPiAxis k)).res = fun j => if j = k then -Real.pi else 0 :=
  ⟨fun _ h1 h3 => ⟨by linarith, by linarith⟩, fun k => log3_rotPiAxis_eval prec k⟩

/-- A sample 3×3 matrix with trace 1. -/
def diagTrOne : Matrix3 := Matrix.of fun i j => if i = 0 ∧ j = 0 then 1 else 0

/-- Witness for C4: at a matrix of trace `1` the `acos` argument is inside
`(-1, 1)`. -/
theorem log3_no_nan_witness :
    -1 < (trace3 diagTrOne - 1) / 2 ∧ (trace3 diagTrOne - 1) / 2 < 1 :=
  (log3_no_nan 1).1 diagTrOne
    (by simp +decide [trace3, diagTrOne])
    (by simp +decide [trace3, diagTrOne])

/-- C10: in the near-π branch the sign of each component comes from a strict
comparison — `+1` only when `R[j,k] > R[k,j]`, `-1` otherwise including the
tie — and consequently a rotation by exactly π about coordinate axis `k`
(where the off-diagonal pair ties at 0) deterministically yields
`r = -π · e_k`. -/
theorem log3_tie_sign (prec : ℝ) (R : Matrix3)
    (h : Real.pi - 1 / 100 ≤ (log3 prec R).theta) :
    ((R 1 2 < R 2 1 → (log3 prec R).res 0 = Real.sqrt (max 0 (tmp3 R 0)))
      ∧ (R 2 1 ≤ R 1 2 → (log3 prec R).res 0 = -Real.sqrt (max 0 (tmp3 R 0))))
    ∧ ∀ k : Fin 3,
        (log3 prec (rotPiAxis k)).res = fun j => if j = k then -Real.pi else 0 := by
  have hth : (log3 prec R).theta = log3theta R := rfl
  rw [hth] at h
  have h0 : (log3 prec R).res 0 = signFac R 0 * sqrtPos (tmp3 R 0) :=
    log3res_near_pi prec R h 0
  have hsign : signFac R 0 = if_gt (R 2 1) (R 1 2) 1 (-1) := rfl
  refine ⟨⟨?_, ?_⟩, fun k => (log3_rotPiAxis_eval prec k).2⟩
  · intro hgt
    rw [h0, hsign, if_gt_pos hgt, sqrtPos_eq_sqrt_max, one_mul]
  · intro hle
    rw [h0, hsign, if_gt_neg hle, sqrtPos_eq_sqrt_max, neg_one_mul]

/-- Witness for C10: at the π-rotation about the y-axis the off-diagonal pair
ties, and the first component takes the negative square root. -/
theorem log3_tie_sign_witness :
    Real.pi - 1 / 100 ≤ (log3 1 (rotPiAxis 1)).theta
    ∧ (log3 1 (rotPiAxis 1)).res 0 = -Real.sqrt (max 0 (tmp3 (rotPiAxis 1) 0)) := by
  have h : Real.pi - 1 / 100 ≤ (log3 1 (rotPiAxis 1)).theta := by
    rw [(log3_rotPiAxis_eval 1 1).1]; linarith
  refine ⟨h, (log3_tie_sign 1 (rotPiAxis 1) h).1.2 ?_⟩
  rw [rotPiAxis_off_diag 1 (by decide), rotPiAxis_off_diag 1 (by decide)]

/-- `skew(v)`: the skew-symmetric cross-product matrix that `addSkew(v, M)`
adds to `M`. -/
def skew3 (v : Vec3) : Matrix3 :=
  Matrix.of ![![0, -v 2, v 1], ![v 2, 0, -v 0], ![-v 1, v 0, 0]]

/-- The coefficient `alpha` of `Jlog3_impl::run` (lines 86-89 of `log.hxx`),
with `st_1mct = sin θ / (1 - cos θ)`. -/
noncomputable def jlog3alpha (prec θ : ℝ) : ℝ :=
  if_lt θ prec
    (1 / 12 + θ * θ / 720)
    (1 / (θ * θ) - (Real.sin θ / (1 - Real.cos θ)) / (2 * θ))

/-- The coefficient `diag_value` of `Jlog3_impl::run` (lines 91-94). -/
noncomputable def jlog3diag (prec θ : ℝ) : ℝ :=
  if_lt θ prec
    ((1 / 2) * (2 - θ * θ / 6))
    ((1 / 2) * (θ * (Real.sin θ / (1 - Real.cos θ))))

/-- `Jlog3_impl<Scalar>::run(theta, log, Jlog)` as a pure function
(lines 74-102 of `log.hxx`): `alpha · log·logᵀ`, plus `diag_value` on the
diagonal, plus `addSkew(0.5 · log, ·)`. -/
noncomputable def Jlog3 (prec θ : ℝ) (r : Vec3) : Matrix3 :=
  Matrix.of fun i j =>
    jlog3alpha prec θ * (r i * r j)
    + (if i = j then jlog3diag prec θ else 0)
    + skew3 (fun k => (1 / 2) * r k) i j

theorem skew3_half (v : Vec3) (i j : Fin 3) :
    skew3 (fun k => (1 / 2 : ℝ) * v k) i j = (1 / 2 : ℝ) * skew3 v i j := by
  fin_cases i <;> fin_cases j <;> (show _ = (1 / 2 : ℝ) * _; norm_num [skew3])

/-- C6: `Jlog3` returns `α · r rᵀ + diag(β) + (1/2) · skew(r)`, where `α` and
the diagonal coefficient `β` take their 6th-order Taylor values when
`θ < prec` (no division by `θ²`) and their closed forms when `θ ≥ prec`. -/
theorem Jlog3_formula (prec θ : ℝ) (r : Vec3) :
    Jlog3 prec θ r =
      jlog3alpha prec θ • Matrix.vecMulVec r r
      + Matrix.diagonal (fun _ => jlog3diag prec θ)
      + (1 / 2 : ℝ) • skew3 r
    ∧ (θ < prec →
        jlog3alpha prec θ = 1 / 12 + θ * θ / 720
        ∧ jlog3diag prec θ = (1 / 2) * (2 - θ * θ / 6))
    ∧ (prec ≤ θ →
        jlog3alpha prec θ = 1 / (θ * θ) - (Real.sin θ / (1 - Real.cos θ)) / (2 * θ)
        ∧ jlog3diag prec θ = (1 / 2) * (θ * (Real.sin θ / (1 - Real.cos θ)))) := by
  refine ⟨?_, fun h => ⟨if_lt_pos h _ _, if_lt_pos h _ _⟩,
    fun h => ⟨if_lt_neg h _ _, if_lt_neg h _ _⟩⟩
  ext i j
  rw [Matrix.add_apply, Matrix.add_apply, Matrix.smul_apply, Matrix.smul_apply,
    Matrix.vecMulVec_apply, Matrix.diagonal_apply]
  rw [show Jlog3 prec θ r i j =
    jlog3alpha prec θ * (r i * r j)
    + (if i = j then jlog3diag prec θ else 0)
    + skew3 (fun k => (1 / 2) * r k) i j from rfl]
  rw [skew3_half]
  rcases eq_or_ne i j with hij | hij
  · rw [if_pos hij, smul_eq_mul, smul_eq_mul]
  · rw [if_neg hij, smul_eq_mul, smul_eq_mul]

/-- Witness for C6: at `θ = 0 < prec = 1` both coefficients take their Taylor
values. -/
theorem Jlog3_formula_witness :
    jlog3alpha 1 0 = 1 / 12 + 0 * 0 / 720
    ∧ jlog3diag 1 0 = (1 / 2) * (2 - 0 * 0 / 6) :=
  (Jlog3_formula 1 0 (fun _ => 0)).2.1 (by norm_num)

/-- A rigid transform: rotation and translation, the scalar instantiation of
`SE3Tpl`. -/
structure SE3R where
  rot : Matrix3
  trans : Vec3

/-- A spatial motion: linear and angular 3-vectors, the scalar instantiation
of `MotionTpl`. -/
structure Motion6 where
  linear : Vec3
  angular : Vec3

/-- `w.cross(p)` for 3-vectors. -/
def cross3 (a b : Vec3) : Vec3 :=
  ![a 1 * b 2 - a 2 * b 1, a 2 * b 0 - a 0 * b 2, a 0 * b 1 - a 1 * b 0]

/-- `w.dot(p)` for 3-vectors. -/
def dot3 (a b : Vec3) : ℝ := a 0 * b 0 + a 1 * b 1 + a 2 * b 2

/-- The coefficient `alpha` of `log6_impl::run` (lines 126-129 of `log.hxx`). -/
noncomputable def log6alpha (prec θ : ℝ) : ℝ :=
  if_lt θ prec
    (1 - θ * θ / 12 - (θ * θ) * (θ * θ) / 720)
    (θ * Real.sin θ / (2 * (1 - Real.cos θ)))

/-- The coefficient `beta` of `log6_impl::run` (lines 131-134 of `log.hxx`). -/
noncomputable def log6beta (prec θ : ℝ) : ℝ :=
  if_lt θ prec
    (1 / 12 + θ * θ / 720)
    (1 / (θ * θ) - Real.sin θ / (2 * θ * (1 - Real.cos θ)))

/-- `log6_impl<Scalar>::run(M, mout)` as a pure function (lines 109-138 of
`log.hxx`). -/
noncomputable def log6 (prec : ℝ) (M : SE3R) : Motion6 :=
  let θ := log3theta M.rot
  let w := log3res prec M.rot
  ⟨fun i => log6alpha prec θ * M.trans i - (1 / 2) * cross3 w M.trans i
      + (log6beta prec θ * dot3 w M.trans) * w i,
   w⟩

/-- C5: `log6` takes the angular part `w` from `log3` of the rotation, and its
linear part is `α·p - 0.5·(w × p) + β·(w·p)·w`, where `α`, `β` take their
closed forms for `θ ≥ prec` and their Taylor values for `θ < prec`. -/
theorem log6_formula (prec : ℝ) (M : SE3R) :
    ((log6 prec M).angular = (log3 prec M.rot).res
      ∧ ∀ i, (log6 prec M).linear i =
          log6alpha prec ((log3 prec M.rot).theta) * M.trans i
          - (1 / 2) * cross3 ((log3 prec M.rot).res) M.trans i
          + (log6beta prec ((log3 prec M.rot).theta)
              * dot3 ((log3 prec M.rot).res) M.trans) * (log3 prec M.rot).res i)
    ∧ ∀ θ : ℝ,
        (prec ≤ θ →
          log6alpha prec θ = θ * Real.sin θ / (2 * (1 - Real.cos θ))
          ∧ log6beta prec θ = 1 / (θ * θ) - Real.sin θ / (2 * θ * (1 - Real.cos θ)))
        ∧ (θ < prec →
          log6alpha prec θ = 1 - θ * θ / 12 - (θ * θ) * (θ * θ) / 720
          ∧ log6beta prec θ = 1 / 12 + θ * θ / 720) :=
  ⟨⟨rfl, fun _ => rfl⟩,
   fun _ => ⟨fun h => ⟨if_lt_neg h _ _, if_lt_neg h _ _⟩,
     fun h => ⟨if_lt_pos h _ _, if_lt_pos h _ _⟩⟩⟩

/-- Witness for C5: at `θ = 0 < prec = 1` both coefficients take their Taylor
values. -/
theorem log6_formula_witness :
    log6alpha 1 0 = 1 - 0 * 0 / 12 - (0 * 0) * (0 * 0) / 720
    ∧ log6beta 1 0 = 1 / 12 + 0 * 0 / 720 :=
  ((log6_formula 1 ⟨rotId, fun _ => 0⟩).2 0).2 (by norm_num)

/-- The coefficient `beta` of `Jlog6_impl::run` (lines 181-184 of `log.hxx`),
with `tinv = 1/t`, `t2inv = tinv·tinv`, `inv_2_2ct = 1/(2(1-cos t))`. -/
noncomputable def jlog6beta (prec t : ℝ) : ℝ :=
  if_lt t prec
    (1 / 12 + t * t / 720)
    ((1 / t) * (1 / t) - Real.sin t * (1 / t) * (1 / (2 * (1 - Real.cos t))))

/-- The coefficient `beta_dot_over_theta` of `Jlog6_impl::run`
(lines 186-189 of `log.hxx`). -/
noncomputable def jlog6betadot (prec t : ℝ) : ℝ :=
  if_lt t prec
    (1 / 360)
    (-2 * ((1 / t) * (1 / t)) * ((1 / t) * (1 / t))
      + (1 + Real.sin t * (1 / t)) * ((1 / t) * (1 / t)) * (1 / (2 * (1 - Real.cos t))))

/-- The intermediate bottom-left block `C` of `Jlog6_impl::run`
(lines 191-197 of `log.hxx`): `v3_tmp·wᵀ + β·w·pᵀ + (wᵀp·β) on the diagonal
+ addSkew(0.5·p, ·)`, with `v3_tmp = (β̇/θ·wᵀp)·w - (t²·β̇/θ + 2β)·p`. -/
noncomputable def jlog6Cblock (prec t : ℝ) (w p : Vec3) : Matrix3 :=
  let β := jlog6beta prec t
  let bdot := jlog6betadot prec t
  let wTp := dot3 w p
  let v3 := fun i => (bdot * wTp) * w i - (t * t * bdot + 2 * β) * p i
  Matrix.of fun i j =>
    v3 i * w j + β * (w i * p j)
    + (if i = j then wTp * β else 0)
    + skew3 (fun k => (1 / 2) * p k) i j

/-- The four 3×3 blocks of the 6×6 matrix written by `Jlog6_impl::run`,
`value = [A, B; C, D]`. -/
structure Jlog6Blocks where
  A : Matrix3
  B : Matrix3
  C : Matrix3
  D : Matrix3

/-- `Jlog6_impl<Scalar>::run(M, Jlog)` as a pure function (lines 144-201 of
`log.hxx`): `A ← Jlog3(t, w)`, `D ← A`, the intermediate block is formed in
`C`, `B ← C·A`, then `C ← 0`. -/
noncomputable def Jlog6 (prec : ℝ) (M : SE3R) : Jlog6Blocks :=
  let t := log3theta M.rot
  let w := log3res prec M.rot
  let A := Jlog3 prec t w
  let Cint := jlog6Cblock prec t w M.trans
  ⟨A, Cint * A, 0, A⟩

/-- C7: the blocks of `Jlog6(M)` satisfy `A = D = Jlog3(θ, w)` with `(θ, w)`
from `log3` of the rotation of `M`; `B` is the product of the intermediate
matrix (built from the Taylor-switched coefficient pair `(β, β̇/θ)` and a
skew term of the translation) with `A`; and the returned bottom-left block
`C` is exactly zero, having been zeroed only after `B` was formed. -/
theorem Jlog6_blocks (prec : ℝ) (M : SE3R) :
    ((Jlog6 prec M).A = Jlog3 prec ((log3 prec M.rot).theta) ((log3 prec M.rot).res)
      ∧ (Jlog6 prec M).D = (Jlog6 prec M).A
      ∧ (Jlog6 prec M).B =
          jlog6Cblock prec ((log3 prec M.rot).theta) ((log3 prec M.rot).res) M.trans
            * (Jlog6 prec M).A
      ∧ (Jlog6 prec M).C = 0)
    ∧ ∀ t : ℝ,
        (t < prec → jlog6beta prec t = 1 / 12 + t * t / 720
          ∧ jlog6betadot prec t = 1 / 360)
        ∧ (prec ≤ t →
          jlog6beta prec t
            = (1 / t) * (1 / t) - Real.sin t * (1 / t) * (1 / (2 * (1 - Real.cos t)))
          ∧ jlog6betadot prec t
            = -2 * ((1 / t) * (1 / t)) * ((1 / t) * (1 / t))
              + (1 + Real.sin t * (1 / t)) * ((1 / t) * (1 / t))
                * (1 / (2 * (1 - Real.cos t)))) :=
  ⟨⟨rfl, rfl, rfl, rfl⟩,
   fun _ => ⟨fun h => ⟨if_lt_pos h _ _, if_lt_pos h _ _⟩,
     fun h => ⟨if_lt_neg h _ _, if_lt_neg h _ _⟩⟩⟩

/-- Witness for C7: at `t = 0 < prec = 1` the coefficient pair takes its
Taylor values. -/
theorem Jlog6_blocks_witness :
    jlog6beta 1 0 = 1 / 12 + 0 * 0 / 720 ∧ jlog6betadot 1 0 = 1 / 360 :=
  ((Jlog6_blocks 1 ⟨rotId, fun _ => 0⟩).2 0).1 (by norm_num)

/-- The reference-frame options of `pinocchio::ReferenceFrame`. -/
inductive ReferenceFrame
  | WORLD
  | LOCAL
  | LOCAL_WORLD_ALIGNED

/-- Read-only kinematic-tree view (spec §3): per joint index, its parent
index, the first velocity column `idx_v` of its reserved block, and the
number `nv` of its velocity columns. -/
structure JacModel where
  parent : ℕ → ℕ
  idx_v : ℕ → ℕ
  nv_j : ℕ → ℕ

/-- The ancestor chain of a joint: the joint itself, then its parents up to
the universe joint `0`; computed with explicit fuel (the tree invariant
`parent j < j` makes `j` units of fuel sufficient). -/
def jointChain (par : ℕ → ℕ) : ℕ → ℕ → List ℕ
  | 0, j => [j]
  | fuel + 1, j => if j = 0 then [0] else j :: jointChain par fuel (par j)

/-- Ancestor chain of joint `j` (including `j` itself). -/
def chainOf (m : JacModel) (j : ℕ) : List ℕ := jointChain m.parent j j

/-- Whether velocity column `c` belongs to a joint on the ancestor chain of
`j`. -/
def colOnChain (m : JacModel) (j c : ℕ) : Bool :=
  (chainOf m j).any fun a =>
    decide (m.idx_v a ≤ c) && decide (c < m.idx_v a + m.nv_j a)

/-- `R.transpose()` for a 3×3 matrix. -/
def transpose3 (R : Matrix3) : Matrix3 := Matrix.of fun i j => R j i

/-- `R * v` for a 3×3 matrix and a 3-vector. -/
def mulVec3 (R : Matrix3) (v : Vec3) : Vec3 :=
  fun i => R i 0 * v 0 + R i 1 * v 1 + R i 2 * v 2

/-- `M.act(m)` for a rigid transform on a spatial motion:
linear `R·v + p × (R·w)`, angular `R·w`. -/
def actMotion (M : SE3R) (m : Motion6) : Motion6 :=
  ⟨fun i => mulVec3 M.rot m.linear i + cross3 M.trans (mulVec3 M.rot m.angular) i,
   mulVec3 M.rot m.angular⟩

/-- `M.actInv(m)`: the inverse action, angular `Rᵀ·w`,
linear `Rᵀ·(v - p × w)`. -/
def actMotionInv (M : SE3R) (m : Motion6) : Motion6 :=
  ⟨mulVec3 (transpose3 M.rot) (fun k => m.linear k - cross3 M.trans m.angular k),
   mulVec3 (transpose3 M.rot) m.angular⟩

/-- The all-zero spatial motion. -/
def zeroMotion : Motion6 := ⟨fun _ => 0, fun _ => 0⟩

/-- Modelled from the spec: the re-expression of a world-frame Jacobian
column into a requested reference frame (spec §4.3, `getJointJacobian`):
WORLD keeps the column as stored, LOCAL applies the inverse of the joint's
current world placement, LOCAL_WORLD_ALIGNED re-centers the linear part at
the joint's current position while keeping world orientation. -/
def frameXform : ReferenceFrame → SE3R → Motion6 → Motion6
  | ReferenceFrame.WORLD, _, col => col
  | ReferenceFrame.LOCAL, oMj, col => actMotionInv oMj col
  | ReferenceFrame.LOCAL_WORLD_ALIGNED, oMj, col =>
      ⟨fun i => col.linear i + cross3 col.angular oMj.trans i, col.angular⟩

/-- Modelled from the spec: the implementation of `getJointJacobian`
(`jacobian.hxx`) is not among the inspected sources; following spec §4.3 and
the contract documented in `jacobian.hpp` (lines 99-112), the call writes,
for every joint on the ancestor chain of `joint_id`, that joint's columns of
the stored world-frame Jacobian re-expressed in the requested frame, into
the caller-supplied buffer, and touches no other column of the buffer. -/
def getJointJacobian (m : JacModel) (oMi : ℕ → SE3R) (J : ℕ → Motion6)
    (jointId : ℕ) (rf : ReferenceFrame) (buf : ℕ → Motion6) : ℕ → Motion6 :=
  fun c => if colOnChain m jointId c then frameXform rf (oMi jointId) (J c) else buf c

/-- C8: `getJointJacobian` writes only the columns of joints on the ancestor
chain of `jointId`; every other column of the caller-supplied buffer is left
untouched, and hence is exactly zero whenever the caller pre-zeroed the
buffer. -/
theorem getJointJacobian_untouched (m : JacModel) (oMi : ℕ → SE3R)
    (J : ℕ → Motion6) (jointId : ℕ) (rf : ReferenceFrame) (buf : ℕ → Motion6)
    (c : ℕ) (h : colOnChain m jointId c = false) :
    getJointJacobian m oMi J jointId rf buf c = buf c
    ∧ (buf c = zeroMotion → getJointJacobian m oMi J jointId rf buf c = zeroMotion) := by
  have hout : getJointJacobian m oMi J jointId rf buf c = buf c := by
    rw [getJointJacobian]
    simp [h]
  exact ⟨hout, fun hz => hout.trans hz⟩

/-- A sample two-joint tree: both joints hang from the universe joint `0`,
joint `1` owns column `0` and joint `2` owns column `1`. -/
def jmTwo : JacModel := ⟨fun _ => 0, fun j => j - 1, fun j => if j = 0 then 0 else 1⟩

/-- Witness for C8: in `jmTwo`, column `1` (owned by joint `2`) is not on the
ancestor chain of joint `1`, and a pre-zeroed buffer stays zero there. -/
theorem getJointJacobian_untouched_witness :
    getJointJacobian jmTwo (fun _ => ⟨rotId, fun _ => 0⟩) (fun _ => zeroMotion) 1
      ReferenceFrame.WORLD (fun _ => zeroMotion) 1 = zeroMotion :=
  (getJointJacobian_untouched jmTwo (fun _ => ⟨rotId, fun _ => 0⟩)
    (fun _ => zeroMotion) 1 ReferenceFrame.WORLD (fun _ => zeroMotion) 1
    (by decide)).2 rfl

/-- Rotation by angle `q` about the x-axis. -/
noncomputable def Rx (q : ℝ) : Matrix3 :=
  Matrix.of ![![1, 0, 0], ![0, Real.cos q, -Real.sin q], ![0, Real.sin q, Real.cos q]]

/-- Composition of rigid transforms: `(M * N).rot = M.rot · N.rot`,
`(M * N).trans = M.rot · N.trans + M.trans`. -/
noncomputable def se3mul (M N : SE3R) : SE3R :=
  ⟨M.rot * N.rot, fun i => mulVec3 M.rot N.trans i + M.trans i⟩

/-- Modelled from the spec: the helical-x joint kernel is not among the
inspected sources; per the `spatial` unit test of `joint-helical.cpp`
(lines 115-118), its placement at configuration `q` is the rotation by `q`
about x together with the translation `q·pitch` along x. -/
noncomputable def helicalHX (pitch q : ℝ) : SE3R := ⟨Rx q, ![q * pitch, 0, 0]⟩

/-- Modelled from the spec: the local motion subspace of the helical-x joint
maps a scalar rate `v` to linear velocity `v·pitch` along x and angular
velocity `v` about x. -/
def helicalSubspace (pitch : ℝ) : Motion6 := ⟨![pitch, 0, 0], ![1, 0, 0]⟩

/-- Modelled from the spec: the prismatic-x joint translates by `q` along x. -/
noncomputable def prismaticPX (q : ℝ) : SE3R := ⟨1, ![q, 0, 0]⟩

/-- Modelled from the spec: the prismatic-x motion subspace (pure linear x). -/
def prismaticSubspace : Motion6 := ⟨![1, 0, 0], ![0, 0, 0]⟩

/-- Modelled from the spec: the revolute-x joint rotates by `q` about x. -/
noncomputable def revoluteRX (q : ℝ) : SE3R := ⟨Rx q, ![0, 0, 0]⟩

/-- Modelled from the spec: the revolute-x motion subspace (pure angular x). -/
def revoluteSubspace : Motion6 := ⟨![0, 0, 0], ![1, 0, 0]⟩

/-- Modelled from the spec: `computeJointJacobians` stores, as the column
block of each joint, the joint's local motion subspace transformed into the
world frame by the joint's accumulated world placement (spec §4.3). -/
def jacColumn (oMi : SE3R) (S : Motion6) : Motion6 := actMotion oMi S

/-- C9: with pitch `0.4`, configuration `q = 1` on the helical-x model and
`q = (0.4, 1)` on the prismatic-then-revolute chain (identity joint
placements), the end body has the same world placement in both models, and
the helical Jacobian column equals the chain's columns combined by the
parameterization map `v = 1 ↦ (0.4, 1)`:
`J_HX·1 = J_PX·0.4 + J_RX·1`. -/
theorem helical_vs_PXRX :
    ((se3mul (prismaticPX (1 * (2 / 5))) (revoluteRX 1)).rot = (helicalHX (2 / 5) 1).rot
      ∧ ∀ i, (se3mul (prismaticPX (1 * (2 / 5))) (revoluteRX 1)).trans i
          = (helicalHX (2 / 5) 1).trans i)
    ∧ (∀ i, (jacColumn (helicalHX (2 / 5) 1) (helicalSubspace (2 / 5))).linear i
          = (2 / 5) * (jacColumn (prismaticPX (1 * (2 / 5))) prismaticSubspace).linear i
            + (jacColumn (se3mul (prismaticPX (1 * (2 / 5))) (revoluteRX 1))
                revoluteSubspace).linear i)
    ∧ (∀ i, (jacColumn (helicalHX (2 / 5) 1) (helicalSubspace (2 / 5))).angular i
          = (2 / 5) * (jacColumn (prismaticPX (1 * (2 / 5))) prismaticSubspace).angular i
            + (jacColumn (se3mul (prismaticPX (1 * (2 / 5))) (revoluteRX 1))
                revoluteSubspace).angular i) := by
  refine ⟨⟨?_, ?_⟩, ?_, ?_⟩
  · show (1 : Matrix3) * Rx 1 = Rx 1
    exact one_mul _
  · intro i
    fin_cases i <;>
      norm_num [se3mul, prismaticPX, revoluteRX, helicalHX, mulVec3, Matrix.one_apply]
  · intro i
    fin_cases i <;>
      norm_num [jacColumn, actMotion, se3mul, prismaticPX, revoluteRX, helicalHX,
        helicalSubspace, prismaticSubspace, revoluteSubspace, mulVec3, cross3,
        Rx, Matrix.one_apply] <;> simp +decide
  · intro i
    fin_cases i <;>
      norm_num [jacColumn, actMotion, se3mul, prismaticPX, revoluteRX, helicalHX,
        helicalSubspace, prismaticSubspace, revoluteSubspace, mulVec3, cross3,
        Rx, Matrix.one_apply]

end Pinocchio
